import Mathlib

/-!
Verification of the top-of-book `OrderBook` component from
`crates/execution/src/lib.rs`.

Embedding choices:
* `f64` prices are modelled as `ℚ`.  Every operation the component performs
  on prices (`+`, `-`, `/ 2.0`) is an exact rational expression of its
  arguments, so the rational model reproduces the code's arithmetic shape.
* `i64` sizes are modelled as `Int`.  The one place the code performs `i64`
  arithmetic that can overflow, `self.bid_size + self.ask_size` inside
  `get_imbalance`, is modelled with explicit two's-complement wrapping at
  64 bits (`wrapI64`), which is the release-mode semantics of Rust's `+`.
* The guarded division inside `get_imbalance` is additionally mirrored by an
  `Option`-valued variant, `get_imbalance_checked`, in which division is
  fallible (`none` on a zero divisor); it witnesses that the zero-total
  guard runs before any division is attempted.
* The exact-cast rational model of `get_imbalance` is faithful for the
  zero-total guard and for all sign behaviour, but it elides the rounding of
  the `i64`-to-`f64` casts and of the `f64` subtraction and division.  Where
  that rounding matters, a refined model `get_imbalance_f64` is used: every
  cast and arithmetic result is rounded to the nearest binary64 value
  (`roundF64`, round-to-nearest, ties to even, normal range — overflow to
  infinity and subnormal underflow cannot arise for the integer casts and
  quotients this function produces).
-/

/-- Smallest `i64` value, `-2^63`. -/
def i64min : Int := -(2 ^ 63)

/-- Largest `i64` value, `2^63 - 1`. -/
def i64max : Int := 2 ^ 63 - 1

/-- An integer is representable as an `i64`. -/
def inI64 (n : Int) : Prop := i64min ≤ n ∧ n ≤ i64max

instance (n : Int) : Decidable (inI64 n) := by
  unfold inI64; infer_instance

/-- Two's-complement wrapping of an integer into the `i64` range, the
release-mode semantics of Rust's `i64` addition. -/
def wrapI64 (n : Int) : Int := (n + 2 ^ 63) % 2 ^ 64 - 2 ^ 63

/-- The `OrderBook` struct: symbol plus the four numeric fields
(`bid`, `ask` are `f64` prices modelled as `ℚ`; the sizes are `i64`
modelled as `Int`). -/
structure OrderBook where
  symbol : String
  bid : ℚ
  ask : ℚ
  bid_size : Int
  ask_size : Int
  deriving DecidableEq

/-- `OrderBook::new(symbol)`: zero prices and sizes, symbol stored verbatim. -/
def OrderBook.new (symbol : String) : OrderBook :=
  { symbol := symbol, bid := 0, ask := 0, bid_size := 0, ask_size := 0 }

/-- `OrderBook::update`: unconditionally replace the four numeric fields. -/
def OrderBook.update (ob : OrderBook) (bid ask : ℚ) (bid_size ask_size : Int) :
    OrderBook :=
  { ob with bid := bid, ask := ask, bid_size := bid_size, ask_size := ask_size }

/-- `OrderBook::get_mid`: `(self.bid + self.ask) / 2.0`. -/
def OrderBook.get_mid (ob : OrderBook) : ℚ := (ob.bid + ob.ask) / 2

/-- `OrderBook::get_spread`: `self.ask - self.bid`. -/
def OrderBook.get_spread (ob : OrderBook) : ℚ := ob.ask - ob.bid

/-- `OrderBook::get_imbalance`: compute `total = (bid_size + ask_size) as f64`
(the `i64` addition wraps at 64 bits), return `0.0` when `total == 0.0`, and
otherwise `(bid_size as f64 - ask_size as f64) / total`. -/
def OrderBook.get_imbalance (ob : OrderBook) : ℚ :=
  let total : ℚ := (wrapI64 (ob.bid_size + ob.ask_size) : ℚ)
  if total = 0 then 0
  else ((ob.bid_size : ℚ) - (ob.ask_size : ℚ)) / total

/-- Division made fallible: `none` when the divisor is zero. -/
def qdivChecked (a b : ℚ) : Option ℚ :=
  if b = 0 then none else some (a / b)

/-- `get_imbalance` with the division made fallible, mirroring the source
line by line: the zero-total guard is evaluated first, and only on the
`else` branch is the (fallible) division attempted. -/
def OrderBook.get_imbalance_checked (ob : OrderBook) : Option ℚ :=
  let total : ℚ := (wrapI64 (ob.bid_size + ob.ask_size) : ℚ)
  if total = 0 then some 0
  else qdivChecked ((ob.bid_size : ℚ) - (ob.ask_size : ℚ)) total

/-- Apply a sequence of `update` calls, one tuple of arguments per call. -/
def OrderBook.applyUpdates (ob : OrderBook) :
    List (ℚ × ℚ × Int × Int) → OrderBook
  | [] => ob
  | (bp, ap, bs, asz) :: rest => (ob.update bp ap bs asz).applyUpdates rest

/-- Round a rational to the nearest integer, ties to even (the rounding rule
of IEEE-754 binary64). -/
def rne (x : ℚ) : ℤ :=
  if x - ⌊x⌋ < 1 / 2 then ⌊x⌋
  else if 1 / 2 < x - ⌊x⌋ then ⌊x⌋ + 1
  else if ⌊x⌋ % 2 = 0 then ⌊x⌋ else ⌊x⌋ + 1

/-- Round a positive rational to the nearest binary64 value: scale into the
53-bit significand range `[2^52, 2^53)` using the binary exponent, round the
significand to the nearest integer (ties to even), and scale back. -/
def roundPos (x : ℚ) : ℚ :=
  ((rne (x * (2 : ℚ) ^ ((52 : ℤ) - Int.log 2 x)) : ℤ) : ℚ)
    * (2 : ℚ) ^ (Int.log 2 x - (52 : ℤ))

/-- Round a rational to the nearest binary64 value (round-to-nearest, ties
to even, normal range). -/
def roundF64 (x : ℚ) : ℚ :=
  if x = 0 then 0 else if 0 < x then roundPos x else -roundPos (-x)

/-- `OrderBook::get_imbalance` with every `f64` cast and arithmetic result
rounded to the nearest binary64 value: `total` is the rounded cast of the
wrapped `i64` sum, the numerator is the rounded `f64` difference of the two
rounded casts, and the returned value is the rounded `f64` quotient. -/
def OrderBook.get_imbalance_f64 (ob : OrderBook) : ℚ :=
  let total : ℚ := roundF64 ((wrapI64 (ob.bid_size + ob.ask_size) : ℚ))
  if total = 0 then 0
  else
    roundF64 (roundF64 (roundF64 ((ob.bid_size : ℚ))
      - roundF64 ((ob.ask_size : ℚ))) / total)

/-! Basic lemmas about the wrap function. -/

theorem wrapI64_zero : wrapI64 0 = 0 := by
  unfold wrapI64; decide

theorem wrapI64_eq_self {n : Int} (h₁ : i64min ≤ n) (h₂ : n ≤ i64max) :
    wrapI64 n = n := by
  unfold wrapI64
  unfold i64min at h₁
  unfold i64max at h₂
  omega

theorem wrapI64_mem_range (n : Int) : inI64 (wrapI64 n) := by
  unfold inI64 wrapI64 i64min i64max
  omega

theorem applyUpdates_symbol (ob : OrderBook)
    (updates : List (ℚ × ℚ × Int × Int)) :
    (ob.applyUpdates updates).symbol = ob.symbol := by
  induction updates generalizing ob with
  | nil => rfl
  | cons u rest ih =>
    obtain ⟨bp, ap, bs, asz⟩ := u
    simpa [OrderBook.applyUpdates, OrderBook.update] using ih _

/-- C1: after `Construct(sym)` then `Update(bp, ap, bs, asz)`, `get_mid`
returns `(bp + ap) / 2`, `get_spread` returns `ap - bp`, and the accessors
`bid` and `ask` return `bp` and `ap`. -/
theorem claim_c1_mid_spread_accessors (sym : String) (bp ap : ℚ)
    (bs asz : Int) :
    ((OrderBook.new sym).update bp ap bs asz).get_mid = (bp + ap) / 2 ∧
    ((OrderBook.new sym).update bp ap bs asz).get_spread = ap - bp ∧
    ((OrderBook.new sym).update bp ap bs asz).bid = bp ∧
    ((OrderBook.new sym).update bp ap bs asz).ask = ap :=
  ⟨rfl, rfl, rfl, rfl⟩

/-- C3: in every state whose sizes sum to zero (in particular after any
`update` with both sizes zero, and at construction), `get_imbalance` is
exactly `0`, and the fallible-division variant returns `some 0` without
attempting a division. -/
theorem claim_c3_zero_total (ob : OrderBook)
    (h : ob.bid_size + ob.ask_size = 0) (sym : String) :
    ob.get_imbalance = 0 ∧ ob.get_imbalance_checked = some 0 ∧
    (OrderBook.new sym).get_imbalance = 0 ∧
    (OrderBook.new sym).get_imbalance_checked = some 0 := by
  refine ⟨?_, ?_, ?_, ?_⟩ <;>
    simp [OrderBook.get_imbalance, OrderBook.get_imbalance_checked,
      OrderBook.new, h, wrapI64_zero]

theorem claim_c3_zero_total_witness :
    ((OrderBook.new "AAPL").update 100 (201 / 2) 0 0).bid_size +
        ((OrderBook.new "AAPL").update 100 (201 / 2) 0 0).ask_size = 0 ∧
      (((OrderBook.new "AAPL").update 100 (201 / 2) 0 0).get_imbalance = 0 ∧
        ((OrderBook.new "AAPL").update 100 (201 / 2) 0 0).get_imbalance_checked
            = some 0 ∧
        (OrderBook.new "AAPL").get_imbalance = 0 ∧
        (OrderBook.new "AAPL").get_imbalance_checked = some 0) :=
  ⟨by decide,
    claim_c3_zero_total ((OrderBook.new "AAPL").update 100 (201 / 2) 0 0)
      (by decide) "AAPL"⟩

/-- C4: every operation is total.  `get_imbalance` with fallible division
always succeeds (the zero-total guard precedes the division), and the
wrapped `i64` sum always lies in the `i64` range, so with release-mode
wrapping semantics the `i64` addition cannot fail either. -/
theorem claim_c4_totality (ob : OrderBook) :
    ob.get_imbalance_checked = some ob.get_imbalance ∧
    inI64 (wrapI64 (ob.bid_size + ob.ask_size)) := by
  refine ⟨?_, wrapI64_mem_range _⟩
  simp only [OrderBook.get_imbalance_checked, OrderBook.get_imbalance,
    qdivChecked]
  split_ifs with h₁
  · rfl
  · rfl

/-- C6: `update` is idempotent.  Calling it twice with identical arguments
yields the same state, hence the same `get_mid`, `get_spread` and
`get_imbalance`, as a single call. -/
theorem claim_c6_idempotent (ob : OrderBook) (bp ap : ℚ) (bs asz : Int) :
    ((ob.update bp ap bs asz).update bp ap bs asz).get_mid
        = (ob.update bp ap bs asz).get_mid ∧
    ((ob.update bp ap bs asz).update bp ap bs asz).get_spread
        = (ob.update bp ap bs asz).get_spread ∧
    ((ob.update bp ap bs asz).update bp ap bs asz).get_imbalance
        = (ob.update bp ap bs asz).get_imbalance ∧
    (ob.update bp ap bs asz).update bp ap bs asz = ob.update bp ap bs asz :=
  ⟨rfl, rfl, rfl, rfl⟩

/-- C7: the symbol is immutable.  After any sequence of `update` calls the
symbol is still the construction argument, and a single `update` leaves the
symbol unchanged and sets exactly the four numeric fields to its
arguments. -/
theorem claim_c7_symbol_immutable (sym : String)
    (updates : List (ℚ × ℚ × Int × Int)) (ob : OrderBook) (bp ap : ℚ)
    (bs asz : Int) :
    ((OrderBook.new sym).applyUpdates updates).symbol = sym ∧
    (ob.update bp ap bs asz).symbol = ob.symbol ∧
    ob.update bp ap bs asz =
      { symbol := ob.symbol, bid := bp, ask := ap,
        bid_size := bs, ask_size := asz } :=
  ⟨applyUpdates_symbol _ _, rfl, rfl⟩

/-- C8: a freshly constructed book has zero prices and sizes, so `get_mid`,
`get_spread` and `get_imbalance` are all `0`, and the symbol (including the
empty string) is stored verbatim. -/
theorem claim_c8_initial_state (sym : String) :
    (OrderBook.new sym).bid = 0 ∧ (OrderBook.new sym).ask = 0 ∧
    (OrderBook.new sym).bid_size = 0 ∧ (OrderBook.new sym).ask_size = 0 ∧
    (OrderBook.new sym).get_mid = 0 ∧ (OrderBook.new sym).get_spread = 0 ∧
    (OrderBook.new sym).get_imbalance = 0 ∧
    (OrderBook.new sym).symbol = sym ∧ (OrderBook.new "").symbol = "" := by
  refine ⟨rfl, rfl, rfl, rfl, ?_, ?_, ?_, rfl, rfl⟩ <;>
    simp [OrderBook.new, OrderBook.get_mid, OrderBook.get_spread,
      OrderBook.get_imbalance, wrapI64_zero]

/-- C9: `update` stores its arguments verbatim with no validation or
clamping; in particular a crossed quote `Update(100.5, 100.0, 50, 50)`
yields `get_spread = -0.5`. -/
theorem claim_c9_no_validation (ob : OrderBook) (bp ap : ℚ) (bs asz : Int) :
    (ob.update bp ap bs asz).bid = bp ∧ (ob.update bp ap bs asz).ask = ap ∧
    (ob.update bp ap bs asz).bid_size = bs ∧
    (ob.update bp ap bs asz).ask_size = asz ∧
    ((OrderBook.new "X").update (201 / 2) 100 50 50).get_spread
        = -(1 / 2) := by
  refine ⟨rfl, rfl, rfl, rfl, ?_⟩
  norm_num [OrderBook.new, OrderBook.update, OrderBook.get_spread]

/-- C10: because the guard tests only the sum of the sizes, whenever
`bid_size = -ask_size` the imbalance is exactly `0` and no division is
attempted, even when both sizes (and hence the numerator) are nonzero. -/
theorem claim_c10_opposite_sizes (sym : String) (bp ap : ℚ) (bs asz : Int)
    (h : bs = -asz) :
    ((OrderBook.new sym).update bp ap bs asz).get_imbalance = 0 ∧
    ((OrderBook.new sym).update bp ap bs asz).get_imbalance_checked
        = some 0 := by
  subst h
  constructor <;>
    simp [OrderBook.get_imbalance, OrderBook.get_imbalance_checked,
      OrderBook.new, OrderBook.update, wrapI64_zero]

theorem claim_c10_opposite_sizes_witness :
    (5 : Int) = -(-5 : Int) ∧
      (((OrderBook.new "AAPL").update 100 (201 / 2) 5 (-5)).get_imbalance
          = 0 ∧
        ((OrderBook.new "AAPL").update 100 (201 / 2) 5
              (-5)).get_imbalance_checked = some 0) :=
  ⟨by decide, claim_c10_opposite_sizes "AAPL" 100 (201 / 2) 5 (-5)
    (by decide)⟩

/-- C5: imbalance is antisymmetric in the two sizes.  Swapping the sizes in
an `update` negates the imbalance (the guard reads the same sum either
way). -/
theorem claim_c5_antisymmetric (sym : String) (bp ap : ℚ) (bs asz : Int)
    (h : bs + asz ≠ 0) :
    ((OrderBook.new sym).update bp ap bs asz).get_imbalance
        = -((OrderBook.new sym).update bp ap asz bs).get_imbalance := by
  simp only [OrderBook.get_imbalance, OrderBook.update, OrderBook.new]
  rw [Int.add_comm asz bs]
  split_ifs with ht
  · norm_num
  · have hnum : ((asz : ℚ) - (bs : ℚ)) = -((bs : ℚ) - (asz : ℚ)) := by ring
    rw [hnum, neg_div, neg_neg]

theorem claim_c5_antisymmetric_witness :
    (300 : Int) + 100 ≠ 0 ∧
      ((OrderBook.new "AAPL").update 100 (201 / 2) 300 100).get_imbalance
        = -((OrderBook.new "AAPL").update 100 (201 / 2) 100
              300).get_imbalance :=
  ⟨by decide, claim_c5_antisymmetric "AAPL" 100 (201 / 2) 300 100 (by decide)⟩


/-! Lemmas about round-to-nearest-even and the binary64 rounding model. -/

theorem rne_intCast (n : ℤ) : rne ((n : ℤ) : ℚ) = n := by
  norm_num [rne]

theorem floor_le_rne (x : ℚ) : ⌊x⌋ ≤ rne x := by
  unfold rne; split_ifs <;> omega

theorem rne_le_floor_add_one (x : ℚ) : rne x ≤ ⌊x⌋ + 1 := by
  unfold rne; split_ifs <;> omega

theorem rne_mono {x y : ℚ} (h : x ≤ y) : rne x ≤ rne y := by
  by_cases hf : ⌊x⌋ = ⌊y⌋
  · have hfr : x - (⌊y⌋ : ℚ) ≤ y - (⌊y⌋ : ℚ) := by linarith
    unfold rne
    rw [hf]
    split_ifs <;> first | omega | linarith
  · have hlt : ⌊x⌋ < ⌊y⌋ := lt_of_le_of_ne (Int.floor_le_floor h) hf
    have h1 := rne_le_floor_add_one x
    have h2 := floor_le_rne y
    omega

theorem qcast_two_pow (n : ℕ) : (((2 : ℤ) ^ n : ℤ) : ℚ) = (2 : ℚ) ^ ((n : ℤ)) := by
  push_cast
  rw [zpow_natCast]

theorem log2_eq_of {x : ℚ} {e : ℤ} (hx : 0 < x) (h1 : (2 : ℚ) ^ e ≤ x)
    (h2 : x < (2 : ℚ) ^ (e + 1)) : Int.log 2 x = e := by
  have hb : 1 < (2 : ℕ) := one_lt_two
  have hc : ((2 : ℕ) : ℚ) = (2 : ℚ) := by norm_num
  have ha : e ≤ Int.log 2 x := (Int.zpow_le_iff_le_log hb hx).mp (by rw [hc]; exact h1)
  have hb2 : Int.log 2 x < e + 1 := (Int.lt_zpow_iff_log_lt hb hx).mp (by rw [hc]; exact h2)
  omega

theorem log2_bounds {x : ℚ} (hx : 0 < x) :
    (2 : ℚ) ^ (Int.log 2 x) ≤ x ∧ x < (2 : ℚ) ^ (Int.log 2 x + 1) := by
  have hb : 1 < (2 : ℕ) := one_lt_two
  have hc : ((2 : ℕ) : ℚ) = (2 : ℚ) := by norm_num
  constructor
  · have h := Int.zpow_log_le_self hb hx
    rwa [hc] at h
  · have h := Int.lt_zpow_succ_log_self hb x
    rwa [hc] at h

theorem roundPos_sig_bounds {x : ℚ} (hx : 0 < x) :
    (2 : ℤ) ^ 52 ≤ rne (x * (2 : ℚ) ^ ((52 : ℤ) - Int.log 2 x)) ∧
      rne (x * (2 : ℚ) ^ ((52 : ℤ) - Int.log 2 x)) ≤ (2 : ℤ) ^ 53 := by
  obtain ⟨hlb, hub⟩ := log2_bounds hx
  have h2 : (0 : ℚ) < 2 := by norm_num
  have hp : (0 : ℚ) < (2 : ℚ) ^ ((52 : ℤ) - Int.log 2 x) := zpow_pos h2 _
  have hξl : (2 : ℚ) ^ (52 : ℤ) ≤ x * (2 : ℚ) ^ ((52 : ℤ) - Int.log 2 x) := by
    have h := mul_le_mul_of_nonneg_right hlb hp.le
    rw [← zpow_add₀ (ne_of_gt h2)] at h
    have he : Int.log 2 x + ((52 : ℤ) - Int.log 2 x) = (52 : ℤ) := by ring
    rwa [he] at h
  have hξu : x * (2 : ℚ) ^ ((52 : ℤ) - Int.log 2 x) < (2 : ℚ) ^ (53 : ℤ) := by
    have h := mul_lt_mul_of_pos_right hub hp
    rw [← zpow_add₀ (ne_of_gt h2)] at h
    have he : Int.log 2 x + 1 + ((52 : ℤ) - Int.log 2 x) = (53 : ℤ) := by ring
    rwa [he] at h
  constructor
  · refine le_trans ?_ (floor_le_rne _)
    apply Int.le_floor.mpr
    rw [qcast_two_pow 52]
    exact_mod_cast hξl
  · have hfl : ⌊x * (2 : ℚ) ^ ((52 : ℤ) - Int.log 2 x)⌋ < (2 : ℤ) ^ 53 := by
      apply Int.floor_lt.mpr
      rw [qcast_two_pow 53]
      exact_mod_cast hξu
    have h := rne_le_floor_add_one (x * (2 : ℚ) ^ ((52 : ℤ) - Int.log 2 x))
    omega

theorem roundPos_lb {x : ℚ} (hx : 0 < x) :
    (2 : ℚ) ^ (Int.log 2 x) ≤ roundPos x := by
  obtain ⟨h1, _⟩ := roundPos_sig_bounds hx
  have hp : (0 : ℚ) ≤ (2 : ℚ) ^ (Int.log 2 x - (52 : ℤ)) :=
    (zpow_pos (by norm_num) _).le
  calc (2 : ℚ) ^ (Int.log 2 x)
      = (2 : ℚ) ^ (52 : ℤ) * (2 : ℚ) ^ (Int.log 2 x - (52 : ℤ)) := by
        rw [← zpow_add₀ (by norm_num : (2 : ℚ) ≠ 0)]
        congr 1
        ring
    _ ≤ ((rne (x * (2 : ℚ) ^ ((52 : ℤ) - Int.log 2 x)) : ℤ) : ℚ)
          * (2 : ℚ) ^ (Int.log 2 x - (52 : ℤ)) := by
        refine mul_le_mul_of_nonneg_right ?_ hp
        have h1q : (((2 : ℤ) ^ 52 : ℤ) : ℚ)
            ≤ ((rne (x * (2 : ℚ) ^ ((52 : ℤ) - Int.log 2 x)) : ℤ) : ℚ) :=
          Int.cast_le.mpr h1
        rwa [show (((2 : ℤ) ^ 52 : ℤ) : ℚ) = (2 : ℚ) ^ ((52 : ℤ)) from by
          norm_num] at h1q
    _ = roundPos x := rfl

theorem roundPos_ub {x : ℚ} (hx : 0 < x) :
    roundPos x ≤ (2 : ℚ) ^ (Int.log 2 x + 1) := by
  obtain ⟨_, h2⟩ := roundPos_sig_bounds hx
  have hp : (0 : ℚ) ≤ (2 : ℚ) ^ (Int.log 2 x - (52 : ℤ)) :=
    (zpow_pos (by norm_num) _).le
  calc roundPos x
      = ((rne (x * (2 : ℚ) ^ ((52 : ℤ) - Int.log 2 x)) : ℤ) : ℚ)
          * (2 : ℚ) ^ (Int.log 2 x - (52 : ℤ)) := rfl
    _ ≤ (2 : ℚ) ^ (53 : ℤ) * (2 : ℚ) ^ (Int.log 2 x - (52 : ℤ)) := by
        refine mul_le_mul_of_nonneg_right ?_ hp
        have h2q : ((rne (x * (2 : ℚ) ^ ((52 : ℤ) - Int.log 2 x)) : ℤ) : ℚ)
            ≤ (((2 : ℤ) ^ 53 : ℤ) : ℚ) :=
          Int.cast_le.mpr h2
        rwa [show (((2 : ℤ) ^ 53 : ℤ) : ℚ) = (2 : ℚ) ^ ((53 : ℤ)) from by
          norm_num] at h2q
    _ = (2 : ℚ) ^ (Int.log 2 x + 1) := by
        rw [← zpow_add₀ (by norm_num : (2 : ℚ) ≠ 0)]
        congr 1
        ring

theorem roundPos_pos {x : ℚ} (hx : 0 < x) : 0 < roundPos x :=
  lt_of_lt_of_le (zpow_pos (by norm_num) _) (roundPos_lb hx)

theorem roundPos_mono {x y : ℚ} (hx : 0 < x) (hxy : x ≤ y) :
    roundPos x ≤ roundPos y := by
  have hy : 0 < y := lt_of_lt_of_le hx hxy
  have hle : Int.log 2 x ≤ Int.log 2 y := Int.log_mono_right hx hxy
  rcases eq_or_lt_of_le hle with heq | hlt
  · unfold roundPos
    rw [← heq]
    have hξ : x * (2 : ℚ) ^ ((52 : ℤ) - Int.log 2 x)
        ≤ y * (2 : ℚ) ^ ((52 : ℤ) - Int.log 2 x) :=
      mul_le_mul_of_nonneg_right hxy (zpow_pos (by norm_num) _).le
    have h := rne_mono hξ
    exact mul_le_mul_of_nonneg_right (by exact_mod_cast h)
      (zpow_pos (by norm_num : (0 : ℚ) < 2) _).le
  · calc roundPos x ≤ (2 : ℚ) ^ (Int.log 2 x + 1) := roundPos_ub hx
      _ ≤ (2 : ℚ) ^ (Int.log 2 y) :=
          zpow_le_zpow_right₀ (by norm_num) (by omega)
      _ ≤ roundPos y := roundPos_lb hy

theorem roundF64_zero : roundF64 0 = 0 := by
  simp [roundF64]

theorem roundF64_pos {x : ℚ} (hx : 0 < x) : 0 < roundF64 x := by
  unfold roundF64
  rw [if_neg (ne_of_gt hx), if_pos hx]
  exact roundPos_pos hx

theorem roundF64_neg_of_neg {x : ℚ} (hx : x < 0) : roundF64 x < 0 := by
  unfold roundF64
  rw [if_neg (ne_of_lt hx), if_neg (not_lt.mpr hx.le)]
  simpa using roundPos_pos (neg_pos.mpr hx)

theorem roundF64_nonneg {x : ℚ} (hx : 0 ≤ x) : 0 ≤ roundF64 x := by
  rcases eq_or_lt_of_le hx with h | h
  · rw [← h, roundF64_zero]
  · exact (roundF64_pos h).le

theorem roundF64_neg (x : ℚ) : roundF64 (-x) = -roundF64 x := by
  rcases lt_trichotomy x 0 with hx | hx | hx
  · have h1 : roundF64 (-x) = roundPos (-x) := by
      unfold roundF64
      rw [if_neg (by simpa using ne_of_lt hx), if_pos (by linarith)]
    have h2 : roundF64 x = -roundPos (-x) := by
      unfold roundF64
      rw [if_neg (ne_of_lt hx), if_neg (not_lt.mpr hx.le)]
    rw [h1, h2, neg_neg]
  · simp [hx, roundF64_zero]
  · have h1 : roundF64 x = roundPos x := by
      unfold roundF64
      rw [if_neg (ne_of_gt hx), if_pos hx]
    have h2 : roundF64 (-x) = -roundPos x := by
      unfold roundF64
      rw [if_neg (by simpa using ne_of_gt hx),
        if_neg (not_lt.mpr (by linarith)), neg_neg]
    rw [h1, h2]

theorem roundF64_mono {x y : ℚ} (h : x ≤ y) : roundF64 x ≤ roundF64 y := by
  rcases lt_trichotomy x 0 with hx | hx | hx
  · rcases lt_trichotomy y 0 with hy | hy | hy
    · have h1 : roundF64 x = -roundPos (-x) := by
        unfold roundF64
        rw [if_neg (ne_of_lt hx), if_neg (not_lt.mpr hx.le)]
      have h2 : roundF64 y = -roundPos (-y) := by
        unfold roundF64
        rw [if_neg (ne_of_lt hy), if_neg (not_lt.mpr hy.le)]
      have h3 : roundPos (-y) ≤ roundPos (-x) :=
        roundPos_mono (neg_pos.mpr hy) (by linarith)
      rw [h1, h2]
      linarith
    · rw [hy, roundF64_zero]
      exact (roundF64_neg_of_neg hx).le
    · exact le_trans (roundF64_neg_of_neg hx).le (roundF64_pos hy).le
  · rw [hx, roundF64_zero]
    exact roundF64_nonneg (hx ▸ h)
  · have hy : 0 < y := lt_of_lt_of_le hx h
    have h1 : roundF64 x = roundPos x := by
      unfold roundF64
      rw [if_neg (ne_of_gt hx), if_pos hx]
    have h2 : roundF64 y = roundPos y := by
      unfold roundF64
      rw [if_neg (ne_of_gt hy), if_pos hy]
    rw [h1, h2]
    exact roundPos_mono hx h

theorem roundPos_small_int_mul_zpow {m : ℤ} (k : ℤ) (hm0 : 0 < m)
    (hm : m < 2 ^ 53) :
    roundPos ((m : ℚ) * (2 : ℚ) ^ k) = (m : ℚ) * (2 : ℚ) ^ k := by
  have hmQ : (0 : ℚ) < (m : ℚ) := by exact_mod_cast hm0
  obtain ⟨hLl, hLu⟩ := log2_bounds hmQ
  set L := Int.log 2 ((m : ℚ)) with hLdef
  have hL0 : 0 ≤ L := by
    by_contra hc
    push_neg at hc
    have h1 : (2 : ℚ) ^ (L + 1) ≤ (2 : ℚ) ^ (0 : ℤ) :=
      zpow_le_zpow_right₀ (by norm_num) (by omega)
    have h2 : (1 : ℚ) ≤ (m : ℚ) := by exact_mod_cast hm0
    rw [zpow_zero] at h1
    linarith
  have hL52 : L ≤ 52 := by
    by_contra hc
    push_neg at hc
    have h1 : (2 : ℚ) ^ ((53 : ℤ)) ≤ (2 : ℚ) ^ L :=
      zpow_le_zpow_right₀ (by norm_num) (by omega)
    have h2 : (m : ℚ) < (((2 : ℤ) ^ 53 : ℤ) : ℚ) := by exact_mod_cast hm
    rw [show (((2 : ℤ) ^ 53 : ℤ) : ℚ) = (2 : ℚ) ^ ((53 : ℤ)) from by
      norm_num] at h2
    linarith
  have hx : (0 : ℚ) < (m : ℚ) * (2 : ℚ) ^ k :=
    mul_pos hmQ (zpow_pos (by norm_num) _)
  have hex : Int.log 2 ((m : ℚ) * (2 : ℚ) ^ k) = L + k := by
    apply log2_eq_of hx
    · have h := mul_le_mul_of_nonneg_right hLl
        (zpow_pos (by norm_num : (0 : ℚ) < 2) k).le
      rwa [← zpow_add₀ (by norm_num : (2 : ℚ) ≠ 0)] at h
    · have h := mul_lt_mul_of_pos_right hLu
        (zpow_pos (by norm_num : (0 : ℚ) < 2) k)
      rw [← zpow_add₀ (by norm_num : (2 : ℚ) ≠ 0)] at h
      have he : L + 1 + k = L + k + 1 := by ring
      rwa [he] at h
  have hξ : (m : ℚ) * (2 : ℚ) ^ k * (2 : ℚ) ^ ((52 : ℤ) - (L + k))
      = ((m * 2 ^ (52 - L).toNat : ℤ) : ℚ) := by
    rw [mul_assoc, ← zpow_add₀ (by norm_num : (2 : ℚ) ≠ 0)]
    rw [show k + ((52 : ℤ) - (L + k)) = 52 - L from by ring]
    rw [show (52 : ℤ) - L = ((52 - L).toNat : ℤ) from
      (Int.toNat_of_nonneg (by omega)).symm]
    rw [zpow_natCast]
    push_cast
    rw [Int.toNat_natCast]
  unfold roundPos
  rw [hex, hξ, rne_intCast]
  push_cast
  rw [mul_assoc, ← zpow_natCast (2 : ℚ) ((52 - L).toNat),
    ← zpow_add₀ (by norm_num : (2 : ℚ) ≠ 0)]
  rw [show (((52 - L).toNat : ℤ)) + (L + k - 52) = k from by omega]

theorem roundPos_int_mul_zpow {m : ℤ} (k : ℤ) (hm0 : 0 < m)
    (hm : m ≤ 2 ^ 53) :
    roundPos ((m : ℚ) * (2 : ℚ) ^ k) = (m : ℚ) * (2 : ℚ) ^ k := by
  rcases lt_or_eq_of_le hm with hlt | heq
  · exact roundPos_small_int_mul_zpow k hm0 hlt
  · subst heq
    have hconv : (((2 : ℤ) ^ 53 : ℤ) : ℚ) * (2 : ℚ) ^ k
        = ((1 : ℤ) : ℚ) * (2 : ℚ) ^ ((53 : ℤ) + k) := by
      rw [show (((2 : ℤ) ^ 53 : ℤ) : ℚ) = (2 : ℚ) ^ ((53 : ℤ)) from by
        norm_num]
      rw [zpow_add₀ (by norm_num : (2 : ℚ) ≠ 0)]
      norm_num
    rw [hconv, roundPos_small_int_mul_zpow ((53 : ℤ) + k) one_pos (by norm_num),
      ← hconv]

theorem roundF64_int_mul_zpow (m : ℤ) (k : ℤ) (hm : |m| ≤ 2 ^ 53) :
    roundF64 ((m : ℚ) * (2 : ℚ) ^ k) = (m : ℚ) * (2 : ℚ) ^ k := by
  obtain ⟨hml, hmu⟩ := abs_le.mp hm
  rcases lt_trichotomy m 0 with hm0 | hm0 | hm0
  · have hx : (m : ℚ) * (2 : ℚ) ^ k < 0 :=
      mul_neg_of_neg_of_pos (by exact_mod_cast hm0) (zpow_pos (by norm_num) _)
    unfold roundF64
    rw [if_neg (ne_of_lt hx), if_neg (not_lt.mpr hx.le)]
    have hneg : -((m : ℚ) * (2 : ℚ) ^ k) = ((-m : ℤ) : ℚ) * (2 : ℚ) ^ k := by
      push_cast
      ring
    rw [hneg, roundPos_int_mul_zpow k (by omega) (by omega)]
    push_cast
    ring
  · rw [hm0]
    norm_num [roundF64_zero]
  · have hx : (0 : ℚ) < (m : ℚ) * (2 : ℚ) ^ k :=
      mul_pos (by exact_mod_cast hm0) (zpow_pos (by norm_num) _)
    unfold roundF64
    rw [if_neg (ne_of_gt hx), if_pos hx]
    exact roundPos_int_mul_zpow k hm0 hmu

theorem roundF64_intCast (n : ℤ) (h : |n| ≤ 2 ^ 53) :
    roundF64 ((n : ℤ) : ℚ) = ((n : ℤ) : ℚ) := by
  have hh := roundF64_int_mul_zpow n 0 h
  simpa using hh

theorem roundF64_idem (x : ℚ) : roundF64 (roundF64 x) = roundF64 x := by
  rcases lt_trichotomy x 0 with hx | hx | hx
  · have hrep : roundF64 x
        = ((-(rne ((-x) * (2 : ℚ) ^ ((52 : ℤ) - Int.log 2 (-x)))) : ℤ) : ℚ)
          * (2 : ℚ) ^ (Int.log 2 (-x) - (52 : ℤ)) := by
      unfold roundF64 roundPos
      rw [if_neg (ne_of_lt hx), if_neg (not_lt.mpr hx.le)]
      push_cast
      ring
    obtain ⟨hs1, hs2⟩ := roundPos_sig_bounds (neg_pos.mpr hx)
    rw [hrep]
    exact roundF64_int_mul_zpow _ _ (abs_le.mpr ⟨by omega, by omega⟩)
  · rw [hx, roundF64_zero, roundF64_zero]
  · have hrep : roundF64 x
        = ((rne (x * (2 : ℚ) ^ ((52 : ℤ) - Int.log 2 x)) : ℤ) : ℚ)
          * (2 : ℚ) ^ (Int.log 2 x - (52 : ℤ)) := by
      unfold roundF64 roundPos
      rw [if_neg (ne_of_gt hx), if_pos hx]
    obtain ⟨hs1, hs2⟩ := roundPos_sig_bounds hx
    rw [hrep]
    exact roundF64_int_mul_zpow _ _ (abs_le.mpr ⟨by omega, hs2⟩)

/-- C2 as stated is false: with `bid_size = 3 * 2^61` and `ask_size = 2^62`
(both exactly representable in `f64`) the `i64` sum `2^63 + 2^61` wraps to
`-(3 * 2^61)`, so `get_imbalance_f64` rounds a negative quotient and
returns a negative value, not the mathematical ratio
`(bid_size - ask_size) / (bid_size + ask_size)` (which is `1/5`). -/
theorem claim_c2_counterexample :
    ((OrderBook.new "X").update 100 (201 / 2) (3 * 2 ^ 61)
        (2 ^ 62)).get_imbalance_f64
      ≠ ((3 * 2 ^ 61 - 2 ^ 62 : Int) : ℚ)
          / ((3 * 2 ^ 61 + 2 ^ 62 : Int) : ℚ) := by
  have hwrap : wrapI64 (3 * 2 ^ 61 + 2 ^ 62) = -(3 * 2 ^ 61) := by
    unfold wrapI64
    decide
  have hb : roundF64 (((3 * 2 ^ 61 : Int)) : ℚ) = ((3 * 2 ^ 61 : Int) : ℚ) := by
    have h := roundF64_int_mul_zpow 3 61 (by norm_num)
    have hc : (((3 * 2 ^ 61 : Int)) : ℚ)
        = ((3 : ℤ) : ℚ) * (2 : ℚ) ^ ((61 : ℤ)) := by norm_num
    rw [hc]
    exact h
  have ha : roundF64 (((2 ^ 62 : Int)) : ℚ) = ((2 ^ 62 : Int) : ℚ) := by
    have h := roundF64_int_mul_zpow 1 62 (by norm_num)
    have hc : (((2 ^ 62 : Int)) : ℚ)
        = ((1 : ℤ) : ℚ) * (2 : ℚ) ^ ((62 : ℤ)) := by norm_num
    rw [hc]
    exact h
  have htot : roundF64 (((-(3 * 2 ^ 61) : Int)) : ℚ)
      = ((-(3 * 2 ^ 61) : Int) : ℚ) := by
    have h := roundF64_int_mul_zpow (-3) 61 (by norm_num)
    have hc : (((-(3 * 2 ^ 61) : Int)) : ℚ)
        = ((-3 : ℤ) : ℚ) * (2 : ℚ) ^ ((61 : ℤ)) := by norm_num
    rw [hc]
    exact h
  have hnum : roundF64 (((3 * 2 ^ 61 : Int) : ℚ) - ((2 ^ 62 : Int) : ℚ))
      = ((2 ^ 61 : Int) : ℚ) := by
    have h := roundF64_int_mul_zpow 1 61 (by norm_num)
    have hc : ((3 * 2 ^ 61 : Int) : ℚ) - ((2 ^ 62 : Int) : ℚ)
        = ((1 : ℤ) : ℚ) * (2 : ℚ) ^ ((61 : ℤ)) := by norm_num
    rw [hc, h]
    norm_num
  simp only [OrderBook.get_imbalance_f64, OrderBook.update, OrderBook.new]
  rw [hwrap, htot, hb, ha, hnum]
  rw [if_neg (by norm_num : ((-(3 * 2 ^ 61) : Int) : ℚ) ≠ 0)]
  have hlt : roundF64 ((((2 ^ 61 : Int)) : ℚ) / (((-(3 * 2 ^ 61) : Int)) : ℚ))
      < 0 := by
    apply roundF64_neg_of_neg
    apply div_neg_of_pos_of_neg
    · norm_num
    · norm_num
  have hgt : (0 : ℚ) < ((3 * 2 ^ 61 - 2 ^ 62 : Int) : ℚ)
      / ((3 * 2 ^ 61 + 2 ^ 62 : Int) : ℚ) := by
    apply div_pos <;> norm_num
  exact ne_of_lt (lt_trans hlt hgt)

/-- C2 amended: for any signs of the sizes, whenever the size sum is nonzero
and fits in `i64` (no overflow) and the sizes, their difference and their
sum are exactly representable in `f64` (no cast rounding),
`get_imbalance_f64` returns the true ratio
`(bid_size - ask_size) / (bid_size + ask_size)` rounded once to the nearest
`f64`; and for non-negative sizes with a nonzero, non-overflowing sum the
returned value always lies in `[-1, 1]`. -/
theorem claim_c2_amended (sym : String) (bp ap : ℚ) (bs asz : Int) :
    (bs + asz ≠ 0 → inI64 (bs + asz) →
      roundF64 ((bs : ℚ)) = (bs : ℚ) →
      roundF64 ((asz : ℚ)) = (asz : ℚ) →
      roundF64 (((bs - asz : Int)) : ℚ) = ((bs - asz : Int) : ℚ) →
      roundF64 (((bs + asz : Int)) : ℚ) = ((bs + asz : Int) : ℚ) →
      ((OrderBook.new sym).update bp ap bs asz).get_imbalance_f64
        = roundF64 (((bs - asz : Int) : ℚ) / ((bs + asz : Int) : ℚ))) ∧
    (0 ≤ bs → 0 ≤ asz → bs + asz ≠ 0 → bs + asz ≤ i64max →
      -1 ≤ ((OrderBook.new sym).update bp ap bs asz).get_imbalance_f64 ∧
        ((OrderBook.new sym).update bp ap bs asz).get_imbalance_f64 ≤ 1) := by
  constructor
  · intro hs0 hsr hexb hexa hexd hexs
    have hwrap : wrapI64 (bs + asz) = bs + asz := wrapI64_eq_self hsr.1 hsr.2
    simp only [OrderBook.get_imbalance_f64, OrderBook.update, OrderBook.new]
    rw [hwrap, hexs]
    rw [if_neg (Int.cast_ne_zero.mpr hs0)]
    rw [hexb, hexa]
    rw [show ((bs : Int) : ℚ) - ((asz : Int) : ℚ) = ((bs - asz : Int) : ℚ)
      from by push_cast; ring]
    rw [hexd]
  · intro hb0 ha0 hs0 hsmax
    have hwrap : wrapI64 (bs + asz) = bs + asz :=
      wrapI64_eq_self (by unfold i64min; omega) hsmax
    have hsp : (0 : ℚ) < ((bs + asz : Int) : ℚ) := by
      have h : 0 < bs + asz := by omega
      exact_mod_cast h
    simp only [OrderBook.get_imbalance_f64, OrderBook.update, OrderBook.new]
    rw [hwrap]
    have htotpos : 0 < roundF64 (((bs + asz : Int)) : ℚ) := roundF64_pos hsp
    rw [if_neg (ne_of_gt htotpos)]
    have hTT : roundF64 (roundF64 (((bs + asz : Int)) : ℚ))
        = roundF64 (((bs + asz : Int)) : ℚ) := roundF64_idem _
    have hrb : roundF64 ((bs : ℚ)) ≤ roundF64 (((bs + asz : Int)) : ℚ) := by
      apply roundF64_mono
      have h : bs ≤ bs + asz := by omega
      exact_mod_cast h
    have hra : roundF64 ((asz : ℚ)) ≤ roundF64 (((bs + asz : Int)) : ℚ) := by
      apply roundF64_mono
      have h : asz ≤ bs + asz := by omega
      exact_mod_cast h
    have hrb0 : 0 ≤ roundF64 ((bs : ℚ)) :=
      roundF64_nonneg (by exact_mod_cast hb0)
    have hra0 : 0 ≤ roundF64 ((asz : ℚ)) :=
      roundF64_nonneg (by exact_mod_cast ha0)
    have hd1 : roundF64 ((bs : ℚ)) - roundF64 ((asz : ℚ))
        ≤ roundF64 (((bs + asz : Int)) : ℚ) := by linarith
    have hd2 : -roundF64 (((bs + asz : Int)) : ℚ)
        ≤ roundF64 ((bs : ℚ)) - roundF64 ((asz : ℚ)) := by linarith
    have hn1 : roundF64 (roundF64 ((bs : ℚ)) - roundF64 ((asz : ℚ)))
        ≤ roundF64 (((bs + asz : Int)) : ℚ) := by
      calc roundF64 (roundF64 ((bs : ℚ)) - roundF64 ((asz : ℚ)))
          ≤ roundF64 (roundF64 (((bs + asz : Int)) : ℚ)) := roundF64_mono hd1
        _ = roundF64 (((bs + asz : Int)) : ℚ) := hTT
    have hn2 : -roundF64 (((bs + asz : Int)) : ℚ)
        ≤ roundF64 (roundF64 ((bs : ℚ)) - roundF64 ((asz : ℚ))) := by
      have h := roundF64_mono hd2
      rwa [roundF64_neg, hTT] at h
    have hq1 : roundF64 (roundF64 ((bs : ℚ)) - roundF64 ((asz : ℚ)))
        / roundF64 (((bs + asz : Int)) : ℚ) ≤ 1 :=
      (div_le_one htotpos).mpr hn1
    have hq2 : -1 ≤ roundF64 (roundF64 ((bs : ℚ)) - roundF64 ((asz : ℚ)))
        / roundF64 (((bs + asz : Int)) : ℚ) := by
      rw [neg_le, ← neg_div]
      exact (div_le_one htotpos).mpr (by linarith)
    have hone : roundF64 (1 : ℚ) = 1 := by
      have h := roundF64_intCast 1 (by norm_num)
      simpa using h
    constructor
    · calc (-1 : ℚ) = -roundF64 (1 : ℚ) := by rw [hone]
        _ = roundF64 (-1 : ℚ) := by rw [← roundF64_neg]
        _ ≤ roundF64 (roundF64 (roundF64 ((bs : ℚ)) - roundF64 ((asz : ℚ)))
              / roundF64 (((bs + asz : Int)) : ℚ)) := roundF64_mono hq2
    · calc roundF64 (roundF64 (roundF64 ((bs : ℚ)) - roundF64 ((asz : ℚ)))
              / roundF64 (((bs + asz : Int)) : ℚ))
          ≤ roundF64 (1 : ℚ) := roundF64_mono hq1
        _ = 1 := hone

theorem claim_c2_amended_witness :
    (((OrderBook.new "AAPL").update 100 (201 / 2) 300 100).get_imbalance_f64
        = roundF64 ((((300 : Int) - 100 : Int) : ℚ)
            / (((300 : Int) + 100 : Int) : ℚ))) ∧
    (-1 ≤ ((OrderBook.new "AAPL").update 100 (201 / 2) 300
          100).get_imbalance_f64 ∧
      ((OrderBook.new "AAPL").update 100 (201 / 2) 300
          100).get_imbalance_f64 ≤ 1) :=
  ⟨(claim_c2_amended "AAPL" 100 (201 / 2) 300 100).1 (by decide) (by decide)
      (roundF64_intCast 300 (by norm_num)) (roundF64_intCast 100 (by norm_num))
      (roundF64_intCast (300 - 100) (by norm_num))
      (roundF64_intCast (300 + 100) (by norm_num)),
    (claim_c2_amended "AAPL" 100 (201 / 2) 300 100).2 (by decide) (by decide)
      (by decide) (by decide)⟩
